import Mathlib

/-!
Verification of the Roman-numeral validator/converter/scanner in `Main.py`
(class `RomanNumerals`).

Strings are modelled as `List Char`.  Python's `str.strip`/`str.upper` are
modelled with their ASCII semantics (`Char.isWhitespace`, `Char.toUpper`);
all characters the numeral logic inspects are ASCII.  Python exceptions
(`ValueError` in `arabic_to_roman`, `KeyError` in dictionary lookups) are
modelled with `Option`.
-/

namespace Laba2

/-- Enum `RomanNumeralValidation` from the source. -/
inductive RomanNumeralValidation where
  | VALID
  | INVALID_FORMAT
  | INVALID_ORDER
  | INVALID_REPETITION
  | INVALID_SUBTRACTION
  | EMPTY
deriving DecidableEq

/-- Dataclass `RomanNumeralResult` from the source, with the same field
defaults (`value = None`, `status = VALID`, `position = None`,
`error_details = None`). -/
structure RomanNumeralResult where
  numeral : List Char
  value : Option Int := none
  status : RomanNumeralValidation := RomanNumeralValidation.VALID
  position : Option (Nat × Nat) := none
  error_details : Option String := none
deriving DecidableEq

/-- Dict `ROMAN_VALUES`; lookup of a key absent from the dict is `none`
(a Python `KeyError`). -/
def ROMAN_VALUES (c : Char) : Option Int :=
  if c = 'M' then some 1000
  else if c = 'D' then some 500
  else if c = 'C' then some 100
  else if c = 'L' then some 50
  else if c = 'X' then some 10
  else if c = 'V' then some 5
  else if c = 'I' then some 1
  else none

/-- Dict `SUBTRACTION_RULES`, accessed in the source as
`SUBTRACTION_RULES.get(current_char, [])`; the entries for V, L, D, M are
the empty list, which is also the `.get` default. -/
def SUBTRACTION_RULES (c : Char) : List Char :=
  if c = 'I' then ['V', 'X']
  else if c = 'X' then ['L', 'C']
  else if c = 'C' then ['D', 'M']
  else []

/-- Dict `MAX_REPETITIONS` in its insertion order (Python dicts iterate in
insertion order). -/
def MAX_REPETITIONS : List (Char × Nat) :=
  [('I', 3), ('X', 3), ('C', 3), ('M', 3), ('V', 1), ('L', 1), ('D', 1)]

/-- Set `INVALID_COMBINATIONS`, listed in source order.  The source iterates
a Python set, whose iteration order is unspecified; the order only affects
which offending substring is named in `error_details`, never the status. -/
def INVALID_COMBINATIONS : List (List Char) :=
  [ ['I','I','I','I'], ['V','V'], ['X','X','X','X'], ['L','L'],
    ['C','C','C','C'], ['D','D'], ['M','M','M','M','M'],
    ['I','L'], ['I','C'], ['I','D'], ['I','M'],
    ['X','D'], ['X','M'],
    ['V','X'], ['V','L'], ['V','C'], ['V','D'], ['V','M'],
    ['L','C'], ['L','D'], ['L','M'],
    ['D','M'],
    ['I','I','V'], ['I','I','X'], ['X','X','L'], ['X','X','C'],
    ['C','C','D'], ['C','C','M'] ]

/-- Python `str.strip()` (ASCII whitespace model): drop leading and trailing
whitespace. -/
def stripChars (s : List Char) : List Char :=
  ((s.dropWhile Char.isWhitespace).reverse.dropWhile Char.isWhitespace).reverse

/-- Python `str.upper()` (ASCII model): uppercase each character. -/
def upperChars (s : List Char) : List Char :=
  s.map Char.toUpper

/-- The alternatives of `M{0,3}` in `strict_pattern`. -/
def thousandsOpts : List (List Char) :=
  [[], ['M'], ['M','M'], ['M','M','M']]

/-- The alternatives of `(CM|CD|D?C{0,3})` in `strict_pattern`. -/
def hundredsOpts : List (List Char) :=
  [ ['C','M'], ['C','D'],
    [], ['C'], ['C','C'], ['C','C','C'],
    ['D'], ['D','C'], ['D','C','C'], ['D','C','C','C'] ]

/-- The alternatives of `(XC|XL|L?X{0,3})` in `strict_pattern`. -/
def tensOpts : List (List Char) :=
  [ ['X','C'], ['X','L'],
    [], ['X'], ['X','X'], ['X','X','X'],
    ['L'], ['L','X'], ['L','X','X'], ['L','X','X','X'] ]

/-- The alternatives of `(IX|IV|V?I{0,3})` in `strict_pattern`. -/
def unitsOpts : List (List Char) :=
  [ ['I','X'], ['I','V'],
    [], ['I'], ['I','I'], ['I','I','I'],
    ['V'], ['V','I'], ['V','I','I'], ['V','I','I','I'] ]

/-- Whole-string match of `strict_pattern`
(`^M{0,3}(CM|CD|D?C{0,3})(XC|XL|L?X{0,3})(IX|IV|V?I{0,3})$`).  The regex is
anchored at both ends, every group ranges over a finite list of
alternatives, and the language is exactly the set of concatenations of one
alternative per group. -/
def matchesStrict (s : List Char) : Bool :=
  thousandsOpts.any fun t => hundredsOpts.any fun h =>
    tensOpts.any fun d => unitsOpts.any fun u => s == t ++ h ++ d ++ u

/-- Helper: `isPre p s` holds when `p` is a leading segment of `s`. -/
def isPre : List Char → List Char → Bool
  | [], _ => true
  | _ :: _, [] => false
  | p :: ps, c :: cs => p == c && isPre ps cs

/-- Python substring test `pat in s`: `pat` occurs contiguously in `s`. -/
def containsSub (pat : List Char) : List Char → Bool
  | [] => isPre pat []
  | s@(_ :: rest) => isPre pat s || containsSub pat rest

/-- The `for invalid in INVALID_COMBINATIONS: if invalid in roman` loop:
first forbidden combination occurring in the numeral, if any. -/
def findForbidden (s : List Char) : Option (List Char) :=
  INVALID_COMBINATIONS.find? fun pat => containsSub pat s

/-- Searching the regex `c{k,}` succeeds exactly when `k` consecutive
occurrences of `c` appear somewhere in the string. -/
def hasRun (c : Char) (k : Nat) : List Char → Bool
  | [] => isPre (List.replicate k c) []
  | s@(_ :: rest) => isPre (List.replicate k c) s || hasRun c k rest

/-- The `for symbol, max_rep in MAX_REPETITIONS.items()` loop: first symbol
whose regex `symbol{max_rep+1,}` search succeeds, if any. -/
def findOverRepeated (s : List Char) : Option (Char × Nat) :=
  MAX_REPETITIONS.find? fun p => hasRun p.1 (p.2 + 1) s

/-- `ROMAN_VALUES[char]` inside the pairwise scan; the scan runs only after
the character check, so the lookup never fails and the default is inert. -/
def romanVal (c : Char) : Int :=
  (ROMAN_VALUES c).getD 0

/-- The comparison `value > prev_value`, where `prev_value` starts as
`float('inf')` (modelled by `none`): nothing exceeds infinity. -/
def checkGt (v : Int) : Option Int → Bool
  | none => false
  | some p => p < v

/-- The `while i < n` pairwise order/subtraction scan of
`validate_roman_numeral` (lines 127-177).  Returns the first failure
(status and detail) or `none` when the scan passes.  Advancing `i` by one
or two positions becomes structural recursion on the character list. -/
def pairwise_scan (prev : Option Int) : List Char → Option (RomanNumeralValidation × String)
  | [] => none
  | c :: rest =>
    let cv := romanVal c
    match rest with
    | [] =>
      if checkGt cv prev then
        some (RomanNumeralValidation.INVALID_ORDER, "Некорректный порядок значений")
      else none
    | c2 :: rest2 =>
      let nv := romanVal c2
      if cv < nv then
        if !((SUBTRACTION_RULES c).contains c2) then
          some (RomanNumeralValidation.INVALID_SUBTRACTION, "Некорректное вычитание")
        else if rest2.head? == some c then
          some (RomanNumeralValidation.INVALID_SUBTRACTION, "Вычитаемый символ не может повторяться")
        else if cv * 10 < nv then
          some (RomanNumeralValidation.INVALID_SUBTRACTION, "Вычитание слишком большого значения")
        else if checkGt (nv - cv) prev then
          some (RomanNumeralValidation.INVALID_ORDER, "Некорректный порядок значений")
        else pairwise_scan (some (nv - cv)) rest2
      else
        if checkGt cv prev then
          some (RomanNumeralValidation.INVALID_ORDER, "Некорректный порядок значений")
        else pairwise_scan (some cv) (c2 :: rest2)

/-- Loop body of `roman_to_arabic`: characters arrive rightmost first,
carrying `total` and `prev_value`; an absent dictionary key (`KeyError`)
propagates as `none`. -/
def r2aGo : List Char → Int → Int → Option Int
  | [], total, _ => some total
  | c :: rest, total, prev =>
    match ROMAN_VALUES c with
    | none => none
    | some v => r2aGo rest (if v < prev then total - v else total + v) v

/-- `roman_to_arabic`: iterate over `reversed(roman.upper())` accumulating
the value. -/
def roman_to_arabic (s : List Char) : Option Int :=
  r2aGo (upperChars s).reverse 0 0

/-- The `conversions` table of `arabic_to_roman`. -/
def CONVERSIONS : List (Nat × List Char) :=
  [ (1000, ['M']), (900, ['C','M']), (500, ['D']), (400, ['C','D']),
    (100, ['C']), (90, ['X','C']), (50, ['L']), (40, ['X','L']),
    (10, ['X']), (9, ['I','X']), (5, ['V']), (4, ['I','V']), (1, ['I']) ]

/-- The `for value, symbol in conversions: while num >= value` loop of
`arabic_to_roman`.  Each iteration either appends `symbol` and decreases
`num` by the entry's positive value or moves to the next table entry, so
`num + 14` steps of fuel always suffice; fuel keeps the recursion
structural. -/
def a2rGo : Nat → Nat → List (Nat × List Char) → List Char
  | _, _, [] => []
  | 0, _, _ :: _ => []
  | fuel + 1, num, (v, sym) :: rest =>
    if v ≤ num then sym ++ a2rGo fuel (num - v) ((v, sym) :: rest)
    else a2rGo fuel num rest

/-- `arabic_to_roman`: raises `ValueError` (modelled `none`) unless
`1 <= num <= 3999`, then greedily converts using `CONVERSIONS`. -/
def arabic_to_roman (num : Int) : Option (List Char) :=
  if 1 ≤ num ∧ num ≤ 3999 then some (a2rGo (num.toNat + 14) num.toNat CONVERSIONS)
  else none

/-- `validate_roman_numeral` (lines 85-184): strip and uppercase, then the
short-circuiting stages — empty check, character check, anchored structural
grammar, forbidden combinations, repetition limits, pairwise scan — and on
success the converted value. -/
def validate_roman_numeral (input : List Char) : RomanNumeralResult :=
  let roman := upperChars (stripChars input)
  if roman = [] then
    { numeral := roman, status := RomanNumeralValidation.EMPTY,
      error_details := some "Пустая строка" }
  else if roman.filter (fun c => (ROMAN_VALUES c).isNone) ≠ [] then
    { numeral := roman, status := RomanNumeralValidation.INVALID_FORMAT,
      error_details := some "Недопустимые символы" }
  else if matchesStrict roman then
    match findForbidden roman with
    | some _ =>
      { numeral := roman, status := RomanNumeralValidation.INVALID_SUBTRACTION,
        error_details := some "Запрещенная комбинация" }
    | none =>
      match findOverRepeated roman with
      | some _ =>
        { numeral := roman, status := RomanNumeralValidation.INVALID_REPETITION,
          error_details := some "Символ повторяется более max раз" }
      | none =>
        match pairwise_scan none roman with
        | some e =>
          { numeral := roman, status := e.1, error_details := some e.2 }
        | none =>
          { numeral := roman, value := roman_to_arabic roman,
            status := RomanNumeralValidation.VALID }
  else
    { numeral := roman, status := RomanNumeralValidation.INVALID_FORMAT,
      error_details := some "Не соответствует структуре римских чисел" }

/-- Word character of the regex `\w` (ASCII model): letter, digit or
underscore. -/
def isWordChar (c : Char) : Bool :=
  c.isAlpha || c.isDigit || c == '_'

/-- Roman-alphabet character, the class `[MDCLXVI]` of `roman_pattern`. -/
def isRomanChar (c : Char) : Bool :=
  (ROMAN_VALUES c).isSome

/-- `finditer` of `roman_pattern` (`(?<!\w)[MDCLXVI]+(?!\w)`): the maximal
runs of roman characters whose neighbouring characters (when they exist)
are not word characters.  `cur = some (start, ok, acc)` while inside a run,
where `ok` records that the character before the run was not a word
character and `acc` holds the run reversed. -/
def looseGo (pos : Nat) (prevWord : Bool) (cur : Option (Nat × Bool × List Char)) :
    List Char → List (Nat × Nat × List Char)
  | [] =>
    match cur with
    | some (st, ok, acc) => if ok then [(st, pos, acc.reverse)] else []
    | none => []
  | c :: rest =>
    if isRomanChar c then
      match cur with
      | some (st, ok, acc) => looseGo (pos + 1) true (some (st, ok, c :: acc)) rest
      | none => looseGo (pos + 1) true (some (pos, !prevWord, [c])) rest
    else
      (match cur with
       | some (st, ok, acc) =>
         if ok && !(isWordChar c) then [(st, pos, acc.reverse)] else []
       | none => []) ++ looseGo (pos + 1) (isWordChar c) none rest

/-- `find_roman_numerals_in_text` (lines 228-254).  In strict mode the
source runs `finditer` with the fully anchored `strict_pattern`: `^` only
matches at position 0 and `$` matches at the end of the string or just
before a single final newline, so the only possible match is the whole
uppercased text or the whole text minus a final newline, and there is at
most one match.  In loose mode each `roman_pattern` match is validated and
its span attached. -/
def find_roman_numerals_in_text (text : List Char) (strict : Bool) : List RomanNumeralResult :=
  let u := upperChars text
  if strict then
    if matchesStrict u then
      [{ numeral := u, value := roman_to_arabic u,
         status := RomanNumeralValidation.VALID, position := some (0, u.length) }]
    else if u.getLast? == some '\n' && matchesStrict u.dropLast then
      [{ numeral := u.dropLast, value := roman_to_arabic u.dropLast,
         status := RomanNumeralValidation.VALID, position := some (0, u.length - 1) }]
    else []
  else
    (looseGo 0 false none u).map fun x =>
      let r := validate_roman_numeral x.2.2
      { r with position := some (x.1, x.2.1) }

/-- Field invariant of the spec's ValidationResult: value present iff VALID,
error detail present iff not VALID, never both. -/
def resultInv (r : RomanNumeralResult) : Prop :=
  (r.value.isSome = true ↔ r.status = RomanNumeralValidation.VALID) ∧
  (r.error_details.isSome = true ↔ r.status ≠ RomanNumeralValidation.VALID) ∧
  ¬(r.value.isSome = true ∧ r.error_details.isSome = true)

/-- Facts holding for every string of the strict grammar language: all
characters are roman, the forbidden-combination filter, the repetition
limiter and the pairwise scan all pass, and a nonempty grammar string
converts to a value that re-serializes to exactly itself. -/
def GrammarFacts (s : List Char) : Prop :=
  (∀ c ∈ s, (ROMAN_VALUES c).isSome = true) ∧
  findForbidden s = none ∧
  findOverRepeated s = none ∧
  pairwise_scan none s = none ∧
  (s = [] ∨ (roman_to_arabic s).bind arabic_to_roman = some s)

/-- Kernel-checked fact for one grammar suffix `x` (a hundreds group, a tens
group and a units group): the rule stages pass on the maximal grammar string
`MMM ++ x` (facts for the shorter thousands prefixes follow because they
yield suffixes of it), and a nonempty `x` converts to a value in [1, 999]
whose greedy re-serialization is `x` itself. -/
def goodMMM (x : List Char) : Bool :=
  (let m := ['M','M','M'] ++ x
   m.all (fun c => (ROMAN_VALUES c).isSome) &&
   (findForbidden m).isNone &&
   (findOverRepeated m).isNone &&
   (pairwise_scan none m).isNone) &&
  (x.isEmpty ||
    match roman_to_arabic x with
    | some v => decide (1 ≤ v) && decide (v ≤ 999) &&
        (a2rGo (v.toNat + 14) v.toNat CONVERSIONS == x)
    | none => false)

/-- One hundreds-group worth of `goodMMM` checks (100 grammar suffixes). -/
def goodChunk (hh : List Char) : Bool :=
  tensOpts.all fun d => unitsOpts.all fun u => goodMMM (hh ++ d ++ u)

/-- One integer round trip: convert `k + 1` to a numeral and back. -/
def rtCheck (k : Nat) : Bool :=
  (arabic_to_roman ((k : Int) + 1)).bind roman_to_arabic == some ((k : Int) + 1)

theorem isPre_iff : ∀ (p s : List Char), isPre p s = true ↔ ∃ r, s = p ++ r
  | [], s => by simp [isPre]
  | p :: ps, [] => by simp [isPre]
  | p :: ps, c :: cs => by
    simp only [isPre, Bool.and_eq_true, beq_iff_eq, isPre_iff ps cs]
    constructor
    · rintro ⟨rfl, r, rfl⟩; exact ⟨r, rfl⟩
    · rintro ⟨r, hr⟩
      rw [List.cons_append] at hr
      injection hr with h1 h2
      exact ⟨h1.symm, r, h2⟩

theorem hasRun_iff (c : Char) (k : Nat) :
    ∀ s, hasRun c k s = true ↔ ∃ l r, s = l ++ List.replicate k c ++ r
  | [] => by
    simp only [hasRun, isPre_iff]
    constructor
    · rintro ⟨r, hr⟩; exact ⟨[], r, by simpa using hr⟩
    · rintro ⟨l, r, hr⟩
      rcases List.append_eq_nil.1 (List.append_eq_nil.1 hr.symm).1 with ⟨h1, h2⟩
      exact ⟨r, by simp [h2, (List.append_eq_nil.1 hr.symm).2]⟩
  | x :: s => by
    simp only [hasRun, Bool.or_eq_true, isPre_iff, hasRun_iff c k s]
    constructor
    · rintro (⟨r, hr⟩ | ⟨l, r, hr⟩)
      · exact ⟨[], r, by simpa using hr⟩
      · exact ⟨x :: l, r, by simp [hr]⟩
    · rintro ⟨l, r, hr⟩
      cases l with
      | nil => exact Or.inl ⟨r, by simpa using hr⟩
      | cons y l =>
        rw [List.cons_append, List.cons_append] at hr
        injection hr with h1 h2
        exact Or.inr ⟨l, r, h2⟩

theorem run_dropWhile {f : Char → Bool} {c : Char} {k : Nat} (hf : f c = false) (hk : 0 < k) :
    ∀ (l r : List Char), ∃ l2 r2,
      (l ++ List.replicate k c ++ r).dropWhile f = l2 ++ List.replicate k c ++ r2
  | [], r => by
    obtain ⟨k', rfl⟩ := Nat.exists_eq_succ_of_ne_zero (Nat.pos_iff_ne_zero.1 hk)
    exact ⟨[], r, by simp [List.replicate_succ, List.dropWhile_cons, hf]⟩
  | x :: l, r => by
    by_cases hx : f x = true
    · obtain ⟨l2, r2, h⟩ := run_dropWhile hf hk l r
      exact ⟨l2, r2, by simpa [List.dropWhile_cons, hx] using h⟩
    · exact ⟨x :: l, r, by simp [List.dropWhile_cons, hx]⟩

theorem run_reverse {c : Char} {k : Nat} (l r : List Char) :
    (l ++ List.replicate k c ++ r).reverse = r.reverse ++ List.replicate k c ++ l.reverse := by
  simp [List.reverse_append]

theorem run_strip {c : Char} {k : Nat} (hf : c.isWhitespace = false) (hk : 0 < k)
    {s : List Char} (h : ∃ l r, s = l ++ List.replicate k c ++ r) :
    ∃ l r, stripChars s = l ++ List.replicate k c ++ r := by
  obtain ⟨l, r, rfl⟩ := h
  obtain ⟨l2, r2, h2⟩ := run_dropWhile hf hk l r
  rw [stripChars, h2, run_reverse]
  obtain ⟨l3, r3, h3⟩ := run_dropWhile hf hk r2.reverse l2.reverse
  rw [h3, run_reverse]
  exact ⟨r3.reverse, l3.reverse, rfl⟩

theorem run_upper {c : Char} {k : Nat} (hc : c.toUpper = c)
    {s : List Char} (h : ∃ l r, s = l ++ List.replicate k c ++ r) :
    ∃ l r, upperChars s = l ++ List.replicate k c ++ r := by
  obtain ⟨l, r, rfl⟩ := h
  exact ⟨l.map Char.toUpper, r.map Char.toUpper, by simp [upperChars, List.map_replicate, hc]⟩

theorem matchesStrict_elim {s : List Char} (h : matchesStrict s = true) :
    ∃ t ∈ thousandsOpts, ∃ hh ∈ hundredsOpts, ∃ d ∈ tensOpts, ∃ u ∈ unitsOpts,
      s = t ++ hh ++ d ++ u := by
  simp only [matchesStrict, List.any_eq_true, beq_iff_eq] at h
  obtain ⟨t, ht, hh, hhm, d, hd, u, hu, rfl⟩ := h
  exact ⟨t, ht, hh, hhm, d, hd, u, hu, rfl⟩

theorem ROMAN_VALUES_toUpper {c : Char} (h : (ROMAN_VALUES c).isSome = true) :
    c.toUpper = c := by
  unfold ROMAN_VALUES at h
  split_ifs at h with h1 h2 h3 h4 h5 h6 h7
  · subst h1; decide
  · subst h2; decide
  · subst h3; decide
  · subst h4; decide
  · subst h5; decide
  · subst h6; decide
  · subst h7; decide
  · simp at h

theorem r2aGo_isSome : ∀ (s : List Char), (∀ c ∈ s, (ROMAN_VALUES c).isSome = true) →
    ∀ t p, (r2aGo s t p).isSome = true
  | [], _, t, p => by simp [r2aGo]
  | c :: rest, h, t, p => by
    have hc := h c (by simp)
    obtain ⟨v, hv⟩ := Option.isSome_iff_exists.1 hc
    simp only [r2aGo, hv]
    exact r2aGo_isSome rest (fun x hx => h x (by simp [hx])) _ _

theorem roman_to_arabic_isSome {s : List Char} (h : ∀ c ∈ s, (ROMAN_VALUES c).isSome = true) :
    (roman_to_arabic s).isSome = true := by
  apply r2aGo_isSome
  intro c hc
  rw [List.mem_reverse] at hc
  obtain ⟨d, hd, rfl⟩ := List.mem_map.1 hc
  rw [ROMAN_VALUES_toUpper (h d hd)]
  exact h d hd

theorem filter_none_all {s : List Char}
    (h : s.filter (fun c => (ROMAN_VALUES c).isNone) = []) :
    ∀ c ∈ s, (ROMAN_VALUES c).isSome = true := by
  intro c hc
  have := List.filter_eq_nil_iff.1 h c hc
  cases hv : ROMAN_VALUES c
  · rw [hv] at this; simp at this
  · simp

theorem ROMAN_VALUES_bounds {c : Char} {v : Int} (h : ROMAN_VALUES c = some v) :
    1 ≤ v ∧ v ≤ 1000 := by
  unfold ROMAN_VALUES at h
  split_ifs at h <;> simp_all <;> omega

theorem romanVal_bounds {c : Char} (h : (ROMAN_VALUES c).isSome = true) :
    1 ≤ romanVal c ∧ romanVal c ≤ 1000 := by
  obtain ⟨v, hv⟩ := Option.isSome_iff_exists.1 h
  have hb := ROMAN_VALUES_bounds hv
  rw [romanVal, hv]
  exact hb

theorem checkGt_none (v : Int) : checkGt v none = false := rfl

theorem checkGt_1000 {v : Int} (hv : v ≤ 1000) : checkGt v (some 1000) = false := by
  simp only [checkGt, decide_eq_false_iff_not]
  omega

/-- Once a value of 1000 has been seen, the order check behaves exactly as
with the initial infinite sentinel: no roman composite value exceeds 1000. -/
theorem pairwise_scan_inf1000 : ∀ (s : List Char),
    (∀ c ∈ s, (ROMAN_VALUES c).isSome = true) →
    pairwise_scan (some 1000) s = pairwise_scan none s
  | [], _ => rfl
  | [c], h => by
    have hb := romanVal_bounds (h c (by simp))
    simp only [pairwise_scan]
    rw [checkGt_1000 hb.2, checkGt_none]
  | c :: c2 :: rest, h => by
    have hb := romanVal_bounds (h c (by simp))
    have hb2 := romanVal_bounds (h c2 (by simp))
    simp only [pairwise_scan]
    rw [checkGt_1000 (by omega : romanVal c2 - romanVal c ≤ 1000),
      checkGt_1000 hb.2, checkGt_none, checkGt_none]

/-- A leading M contributes no rule-stage failure: its value 1000 dominates
everything that can follow. -/
theorem pairwise_scan_cons_M : ∀ (s : List Char),
    (∀ c ∈ s, (ROMAN_VALUES c).isSome = true) →
    pairwise_scan none ('M' :: s) = pairwise_scan none s
  | [], _ => rfl
  | c2 :: rest, h => by
    have hb2 := romanVal_bounds (h c2 (by simp))
    have hM : romanVal 'M' = 1000 := rfl
    simp only [pairwise_scan]
    rw [if_neg (by rw [hM]; omega : ¬romanVal 'M' < romanVal c2)]
    rw [checkGt_none]
    simp only [Bool.false_eq_true, if_false]
    rw [hM]
    exact pairwise_scan_inf1000 (c2 :: rest) h

theorem ROMAN_VALUES_M : ROMAN_VALUES 'M' = some 1000 := rfl

theorem r2aGo_append_M : ∀ (l : List Char) (t p : Int),
    (∀ c ∈ l, (ROMAN_VALUES c).isSome = true) → p ≤ 1000 →
    r2aGo (l ++ ['M']) t p = (r2aGo l t p).map (fun w => w + 1000)
  | [], t, p, _, hp => by
    simp only [List.nil_append, r2aGo, ROMAN_VALUES_M]
    rw [if_neg (by omega : ¬(1000 : Int) < p)]
    simp [r2aGo]
  | c :: rest, t, p, h, hp => by
    obtain ⟨v, hv⟩ := Option.isSome_iff_exists.1 (h c (by simp))
    have hb := ROMAN_VALUES_bounds hv
    simp only [List.cons_append, r2aGo, hv]
    exact r2aGo_append_M rest _ v (fun x hx => h x (by simp [hx])) hb.2

theorem roman_to_arabic_cons_M {s : List Char}
    (h : ∀ c ∈ s, (ROMAN_VALUES c).isSome = true) :
    roman_to_arabic ('M' :: s) = (roman_to_arabic s).map (fun w => w + 1000) := by
  unfold roman_to_arabic
  rw [show upperChars ('M' :: s) = 'M' :: upperChars s from rfl, List.reverse_cons]
  refine r2aGo_append_M _ 0 0 ?_ (by norm_num)
  intro c hc
  rw [List.mem_reverse] at hc
  obtain ⟨d, hd, rfl⟩ := List.mem_map.1 hc
  rw [ROMAN_VALUES_toUpper (h d hd)]
  exact h d hd

theorem roman_to_arabic_repM (j : Nat) {s : List Char}
    (h : ∀ c ∈ s, (ROMAN_VALUES c).isSome = true) :
    roman_to_arabic (List.replicate j 'M' ++ s) =
      (roman_to_arabic s).map (fun w : Int => w + 1000 * (j : Int)) := by
  induction j with
  | zero =>
    rw [List.replicate_zero, List.nil_append]
    cases roman_to_arabic s <;> simp
  | succ m ih =>
    rw [List.replicate_succ, List.cons_append, roman_to_arabic_cons_M ?hall, ih]
    case hall =>
      intro c hc
      rw [List.mem_append] at hc
      rcases hc with hc | hc
      · rw [List.eq_of_mem_replicate hc]; rfl
      · exact h c hc
    cases roman_to_arabic s
    · simp
    · simp only [Option.map_some']
      congr 1
      push_cast
      ring

theorem a2rGo_fuel_mono : ∀ (f1 : Nat), ∀ (f2 num : Nat) (convs : List (Nat × List Char)),
    (∀ p ∈ convs, 1 ≤ p.1) → num + convs.length ≤ f1 → num + convs.length ≤ f2 →
    a2rGo f1 num convs = a2rGo f2 num convs := by
  intro f1
  induction f1 using Nat.strong_induction_on with
  | _ f1 ih =>
  intro f2 num convs hv h1 h2
  match convs with
  | [] => cases f1 <;> cases f2 <;> rfl
  | (v, sym) :: rest =>
    have hL : ((v, sym) :: rest).length = rest.length + 1 := rfl
    have hv1 : 1 ≤ v := hv (v, sym) (by simp)
    match f1, f2 with
    | 0, _ => rw [hL] at h1; omega
    | _ + 1, 0 => rw [hL] at h2; omega
    | a + 1, b + 1 =>
      simp only [a2rGo]
      by_cases hvn : v ≤ num
      · rw [if_pos hvn, if_pos hvn]
        congr 1
        exact ih a (by omega) b (num - v) ((v, sym) :: rest) hv
          (by rw [hL] at h1 ⊢; omega) (by rw [hL] at h2 ⊢; omega)
      · rw [if_neg hvn, if_neg hvn]
        exact ih a (by omega) b num rest (fun p hp => hv p (by simp [hp]))
          (by rw [hL] at h1; omega) (by rw [hL] at h2; omega)

theorem CONVERSIONS_pos : ∀ p ∈ CONVERSIONS, 1 ≤ p.1 := by decide

theorem CONVERSIONS_len : CONVERSIONS.length = 13 := rfl

theorem a2rGo_step (fuel num v : Nat) (sym : List Char) (rest : List (Nat × List Char)) :
    a2rGo (fuel + 1) num ((v, sym) :: rest) =
      if v ≤ num then sym ++ a2rGo fuel (num - v) ((v, sym) :: rest)
      else a2rGo fuel num rest := rfl

theorem a2rGo_peel_M {num : Nat} (h1 : 1000 ≤ num) :
    a2rGo (num + 14) num CONVERSIONS =
      'M' :: a2rGo ((num - 1000) + 14) (num - 1000) CONVERSIONS := by
  have step : a2rGo (num + 14) num CONVERSIONS =
      ['M'] ++ a2rGo (num + 13) (num - 1000) CONVERSIONS := by
    rw [show num + 14 = (num + 13) + 1 from rfl,
      show CONVERSIONS = (1000, ['M']) :: CONVERSIONS.tail from rfl,
      a2rGo_step, if_pos h1]
  rw [step, a2rGo_fuel_mono (num + 13) ((num - 1000) + 14) (num - 1000) CONVERSIONS
    CONVERSIONS_pos (by rw [CONVERSIONS_len]; omega) (by rw [CONVERSIONS_len]; omega),
    List.singleton_append]

theorem a2rGo_peel_repM : ∀ (j w : Nat),
    a2rGo ((1000 * j + w) + 14) (1000 * j + w) CONVERSIONS =
      List.replicate j 'M' ++ a2rGo (w + 14) w CONVERSIONS
  | 0, w => by
    rw [show 1000 * 0 + w = w from by omega, List.replicate_zero, List.nil_append]
  | j + 1, w => by
    have hge : 1000 ≤ 1000 * (j + 1) + w := by omega
    rw [a2rGo_peel_M hge, show 1000 * (j + 1) + w - 1000 = 1000 * j + w by omega,
      a2rGo_peel_repM j w, List.replicate_succ, List.cons_append]

theorem a2rGo_chars : ∀ (fuel num : Nat) (convs : List (Nat × List Char)) (c : Char),
    c ∈ a2rGo fuel num convs → ∃ p ∈ convs, c ∈ p.2
  | _, _, [], c => by intro hc; simp [a2rGo] at hc
  | 0, num, p :: rest, c => by intro hc; simp [a2rGo] at hc
  | fuel + 1, num, (v, sym) :: rest, c => by
    simp only [a2rGo]
    split
    · intro hc
      rw [List.mem_append] at hc
      rcases hc with hc | hc
      · exact ⟨(v, sym), by simp, hc⟩
      · exact a2rGo_chars fuel (num - v) ((v, sym) :: rest) c hc
    · intro hc
      obtain ⟨p, hp, hcp⟩ := a2rGo_chars fuel num rest c hc
      exact ⟨p, by simp [hp], hcp⟩

theorem CONVERSIONS_roman :
    ∀ p ∈ CONVERSIONS, ∀ c ∈ p.2, (ROMAN_VALUES c).isSome = true := by decide

theorem containsSub_cons {pat s : List Char} (c : Char)
    (h : containsSub pat s = true) : containsSub pat (c :: s) = true := by
  simp only [containsSub, Bool.or_eq_true]
  exact Or.inr h

theorem hasRun_cons {c0 : Char} {k : Nat} {s : List Char} (c : Char)
    (h : hasRun c0 k s = true) : hasRun c0 k (c :: s) = true := by
  simp only [hasRun, Bool.or_eq_true]
  exact Or.inr h

/-- Dropping a leading M of a string that passes the first four rule stages
leaves a string that still passes them: a substring or run of the suffix is
one of the whole, and the pairwise scan ignores a leading M. -/
theorem stage_strip {s : List Char}
    (hch : ∀ c ∈ 'M' :: s, (ROMAN_VALUES c).isSome = true)
    (hf : findForbidden ('M' :: s) = none)
    (hr : findOverRepeated ('M' :: s) = none)
    (hp : pairwise_scan none ('M' :: s) = none) :
    (∀ c ∈ s, (ROMAN_VALUES c).isSome = true) ∧ findForbidden s = none ∧
      findOverRepeated s = none ∧ pairwise_scan none s = none := by
  have hch2 : ∀ c ∈ s, (ROMAN_VALUES c).isSome = true :=
    fun c hc => hch c (List.mem_cons_of_mem _ hc)
  refine ⟨hch2, ?_, ?_, ?_⟩
  · rw [findForbidden, List.find?_eq_none] at hf ⊢
    intro pat hpat hcon
    exact hf pat hpat (containsSub_cons _ hcon)
  · rw [findOverRepeated, List.find?_eq_none] at hr ⊢
    intro p hpmem hrun
    exact hr p hpmem (hasRun_cons _ hrun)
  · rw [← pairwise_scan_cons_M s hch2]
    exact hp

/-- Lifting the canonical round trip of a grammar suffix x (value v in
[1, 999]) to the string with j thousands in front of it. -/
theorem grammar_E_lift (j : Nat) (hj : j ≤ 3) {x : List Char}
    (hxr : ∀ c ∈ x, (ROMAN_VALUES c).isSome = true)
    {v : Int} (hv : roman_to_arabic x = some v) (hv1 : 1 ≤ v) (hv2 : v ≤ 999)
    (hser : a2rGo (v.toNat + 14) v.toNat CONVERSIONS = x) :
    (roman_to_arabic (List.replicate j 'M' ++ x)).bind arabic_to_roman =
      some (List.replicate j 'M' ++ x) := by
  rw [roman_to_arabic_repM j hxr, hv]
  simp only [Option.map_some', Option.some_bind]
  unfold arabic_to_roman
  rw [if_pos (by constructor <;> omega)]
  have ht : (v + 1000 * (j : Int)).toNat = 1000 * j + v.toNat := by omega
  rw [ht, a2rGo_peel_repM j v.toNat, hser]
set_option maxRecDepth 10000 in
theorem goodChunk_cm : goodChunk ['C','M'] = true := by decide!

set_option maxRecDepth 10000 in
theorem goodChunk_cd : goodChunk ['C','D'] = true := by decide!

set_option maxRecDepth 10000 in
theorem goodChunk_nil : goodChunk [] = true := by decide!

set_option maxRecDepth 10000 in
theorem goodChunk_c : goodChunk ['C'] = true := by decide!

set_option maxRecDepth 10000 in
theorem goodChunk_cc : goodChunk ['C','C'] = true := by decide!

set_option maxRecDepth 10000 in
theorem goodChunk_ccc : goodChunk ['C','C','C'] = true := by decide!

set_option maxRecDepth 10000 in
theorem goodChunk_d : goodChunk ['D'] = true := by decide!

set_option maxRecDepth 10000 in
theorem goodChunk_dc : goodChunk ['D','C'] = true := by decide!

set_option maxRecDepth 10000 in
theorem goodChunk_dcc : goodChunk ['D','C','C'] = true := by decide!

set_option maxRecDepth 10000 in
theorem goodChunk_dccc : goodChunk ['D','C','C','C'] = true := by decide!

theorem goodMMM_all {hh d u : List Char} (hmem : hh ∈ hundredsOpts)
    (hd : d ∈ tensOpts) (hu : u ∈ unitsOpts) : goodMMM (hh ++ d ++ u) = true := by
  have key : goodChunk hh = true := by
    simp only [hundredsOpts, List.mem_cons, List.not_mem_nil, or_false] at hmem
    rcases hmem with rfl | rfl | rfl | rfl | rfl | rfl | rfl | rfl | rfl | rfl
    exacts [goodChunk_cm, goodChunk_cd, goodChunk_nil, goodChunk_c, goodChunk_cc,
      goodChunk_ccc, goodChunk_d, goodChunk_dc, goodChunk_dcc, goodChunk_dccc]
  unfold goodChunk at key
  simp only [List.all_eq_true] at key
  exact key d hd u hu

theorem roundtrip_M1 : (roman_to_arabic ['M']).bind arabic_to_roman = some ['M'] := by decide

theorem roundtrip_M2 :
    (roman_to_arabic ['M','M']).bind arabic_to_roman = some ['M','M'] := by decide

theorem roundtrip_M3 :
    (roman_to_arabic ['M','M','M']).bind arabic_to_roman = some ['M','M','M'] := by decide

/-- Every string accepted by the anchored structural grammar satisfies all
the rule-stage and canonical-round-trip facts. -/
theorem grammarFacts_of_matches {s : List Char} (hm : matchesStrict s = true) :
    GrammarFacts s := by
  obtain ⟨t, ht, hh, hhm, d, hd, u, hu, rfl⟩ := matchesStrict_elim hm
  have base := goodMMM_all hhm hd hu
  simp only [goodMMM, Bool.and_eq_true, Option.isNone_iff_eq_none, List.all_eq_true] at base
  obtain ⟨⟨⟨⟨hch3, hf3⟩, hr3⟩, hp3⟩, hE⟩ := base
  have st2 := stage_strip hch3 hf3 hr3 hp3
  have st1 := stage_strip st2.1 st2.2.1 st2.2.2.1 st2.2.2.2
  have st0 := stage_strip st1.1 st1.2.1 st1.2.2.1 st1.2.2.2
  have hEx : (hh ++ d ++ u) = [] ∨
      ∃ v, roman_to_arabic (hh ++ d ++ u) = some v ∧ 1 ≤ v ∧ v ≤ 999 ∧
        a2rGo (v.toNat + 14) v.toNat CONVERSIONS = (hh ++ d ++ u) := by
    rw [Bool.or_eq_true, List.isEmpty_iff] at hE
    rcases hE with hE | hE
    · exact Or.inl hE
    · right
      cases hv : roman_to_arabic (hh ++ d ++ u) with
      | none => rw [hv] at hE; simp at hE
      | some v =>
        rw [hv] at hE
        simp only [Bool.and_eq_true, beq_iff_eq, decide_eq_true_eq] at hE
        exact ⟨v, rfl, hE.1.1, hE.1.2, hE.2⟩
  have main : ∀ j : Nat, j ≤ 3 → GrammarFacts (List.replicate j 'M' ++ (hh ++ d ++ u)) := by
    intro j hj
    have stages : (∀ c ∈ List.replicate j 'M' ++ (hh ++ d ++ u),
          (ROMAN_VALUES c).isSome = true) ∧
        findForbidden (List.replicate j 'M' ++ (hh ++ d ++ u)) = none ∧
        findOverRepeated (List.replicate j 'M' ++ (hh ++ d ++ u)) = none ∧
        pairwise_scan none (List.replicate j 'M' ++ (hh ++ d ++ u)) = none := by
      match j, hj with
      | 0, _ => exact st0
      | 1, _ => exact st1
      | 2, _ => exact st2
      | 3, _ => exact ⟨hch3, hf3, hr3, hp3⟩
      | m + 4, hj4 => exact absurd hj4 (by omega)
    refine ⟨stages.1, stages.2.1, stages.2.2.1, stages.2.2.2, ?_⟩
    rcases hEx with hnil | ⟨v, hv, hv1, hv2, hser⟩
    · rw [hnil, List.append_nil]
      match j, hj with
      | 0, _ => exact Or.inl rfl
      | 1, _ => exact Or.inr roundtrip_M1
      | 2, _ => exact Or.inr roundtrip_M2
      | 3, _ => exact Or.inr roundtrip_M3
      | m + 4, hj4 => exact absurd hj4 (by omega)
    · exact Or.inr (grammar_E_lift j hj st0.1 hv hv1 hv2 hser)
  have ht4 : ∃ j : Nat, j ≤ 3 ∧ t = List.replicate j 'M' := by
    simp only [thousandsOpts, List.mem_cons, List.not_mem_nil, or_false] at ht
    rcases ht with rfl | rfl | rfl | rfl
    · exact ⟨0, by omega, rfl⟩
    · exact ⟨1, by omega, rfl⟩
    · exact ⟨2, by omega, rfl⟩
    · exact ⟨3, by omega, rfl⟩
  obtain ⟨j, hj, rfl⟩ := ht4
  have := main j hj
  rwa [show List.replicate j 'M' ++ (hh ++ d ++ u) =
    List.replicate j 'M' ++ hh ++ d ++ u by simp [List.append_assoc]] at this
set_option maxRecDepth 100000 in
/-- Kernel evaluation of the round trip over the base range [1, 999]; the
thousands are handled by the peeling lemmas. -/
theorem rt_base : ((List.range 999).all fun k => rtCheck k) = true := by decide!

theorem validate_shape (s : List Char) :
    (upperChars (stripChars s) = [] ∧
      validate_roman_numeral s =
        { numeral := upperChars (stripChars s), status := RomanNumeralValidation.EMPTY,
          error_details := some "Пустая строка" }) ∨
    (upperChars (stripChars s) ≠ [] ∧
      (upperChars (stripChars s)).filter (fun c => (ROMAN_VALUES c).isNone) ≠ [] ∧
      validate_roman_numeral s =
        { numeral := upperChars (stripChars s), status := RomanNumeralValidation.INVALID_FORMAT,
          error_details := some "Недопустимые символы" }) ∨
    (upperChars (stripChars s) ≠ [] ∧
      (upperChars (stripChars s)).filter (fun c => (ROMAN_VALUES c).isNone) = [] ∧
      matchesStrict (upperChars (stripChars s)) = false ∧
      validate_roman_numeral s =
        { numeral := upperChars (stripChars s), status := RomanNumeralValidation.INVALID_FORMAT,
          error_details := some "Не соответствует структуре римских чисел" }) ∨
    (upperChars (stripChars s) ≠ [] ∧
      (upperChars (stripChars s)).filter (fun c => (ROMAN_VALUES c).isNone) = [] ∧
      matchesStrict (upperChars (stripChars s)) = true ∧
      validate_roman_numeral s =
        { numeral := upperChars (stripChars s),
          value := roman_to_arabic (upperChars (stripChars s)),
          status := RomanNumeralValidation.VALID }) := by
  unfold validate_roman_numeral
  by_cases h1 : upperChars (stripChars s) = []
  · rw [if_pos h1]
    exact Or.inl ⟨h1, rfl⟩
  · rw [if_neg h1]
    by_cases h2 : (upperChars (stripChars s)).filter (fun c => (ROMAN_VALUES c).isNone) = []
    · rw [if_neg (by simpa using h2)]
      by_cases h3 : matchesStrict (upperChars (stripChars s)) = true
      · rw [if_pos h3]
        obtain ⟨_, hforb, hrep, hpair, _⟩ := grammarFacts_of_matches h3
        rw [hforb, hrep, hpair]
        exact Or.inr (Or.inr (Or.inr ⟨h1, h2, h3, rfl⟩))
      · rw [if_neg h3]
        exact Or.inr (Or.inr (Or.inl ⟨h1, h2, Bool.not_eq_true _ ▸ (Bool.eq_false_iff.2 h3 : _), rfl⟩))
    · rw [if_pos (by simpa using h2)]
      exact Or.inr (Or.inl ⟨h1, h2, rfl⟩)

/-- C2: for every input string, `validate_roman_numeral` returns only one of
the statuses VALID, EMPTY or INVALID_FORMAT; the branches returning
INVALID_SUBTRACTION, INVALID_REPETITION and INVALID_ORDER are unreachable
because the anchored structural grammar check runs first and every string it
accepts passes all later rule stages. -/
theorem validate_status_closed (s : List Char) :
    (validate_roman_numeral s).status = RomanNumeralValidation.VALID ∨
    (validate_roman_numeral s).status = RomanNumeralValidation.EMPTY ∨
    (validate_roman_numeral s).status = RomanNumeralValidation.INVALID_FORMAT := by
  rcases validate_shape s with ⟨_, h⟩ | ⟨_, _, h⟩ | ⟨_, _, _, h⟩ | ⟨_, _, _, h⟩ <;>
    rw [h] <;> simp

/-- C4: whenever `validate_roman_numeral` returns status VALID with value v,
re-serializing with `arabic_to_roman v` yields exactly the normalized numeral
text stored in the result, even when the original input was a
differently-spelled (lowercase or padded) but accepted form. -/
theorem validate_valid_canonical (s : List Char) (v : Int)
    (hst : (validate_roman_numeral s).status = RomanNumeralValidation.VALID)
    (hv : (validate_roman_numeral s).value = some v) :
    arabic_to_roman v = some ((validate_roman_numeral s).numeral) := by
  rcases validate_shape s with ⟨_, h⟩ | ⟨_, _, h⟩ | ⟨_, _, _, h⟩ | ⟨hne, _, hm, h⟩
  · rw [h] at hst; simp at hst
  · rw [h] at hst; simp at hst
  · rw [h] at hst; simp at hst
  · rw [h] at hv ⊢
    obtain ⟨_, _, _, _, hE⟩ := grammarFacts_of_matches hm
    rcases hE with hemp | hrt
    · exact absurd hemp hne
    · simp only at hv
      rw [hv] at hrt
      simpa using hrt

/-- Witness for C4's theorem at the concrete input " mcmlxxxiv ". -/
theorem validate_valid_canonical_witness :
    arabic_to_roman 1984 = some ((validate_roman_numeral (" mcmlxxxiv ".toList)).numeral) :=
  validate_valid_canonical _ 1984 (by decide) (by decide)

theorem maxrep_syms :
    (MAX_REPETITIONS.all fun p =>
      (!(Char.isWhitespace p.1)) && (Char.toUpper p.1 == p.1) && (ROMAN_VALUES p.1).isSome) = true := by
  decide

/-- C6 (amended): every input in which some symbol occurs in an unbroken run
one more time than its repetition limit is rejected with INVALID_FORMAT — the
anchored grammar gate rejects over-repetition before the forbidden-combination
filter or the repetition limiter can run, and the outcome is deterministic. -/
theorem overrun_invalid_format (s : List Char) (c : Char) (k : Nat)
    (hmem : (c, k) ∈ MAX_REPETITIONS) (hrun : hasRun c (k + 1) s = true) :
    (validate_roman_numeral s).status = RomanNumeralValidation.INVALID_FORMAT := by
  have hsym := maxrep_syms
  simp only [List.all_eq_true] at hsym
  have hc := hsym (c, k) hmem
  simp only [Bool.and_eq_true, Bool.not_eq_true', beq_iff_eq] at hc
  obtain ⟨⟨hws, hup⟩, _⟩ := hc
  have hrun' : hasRun c (k + 1) (upperChars (stripChars s)) = true := by
    rw [hasRun_iff]
    exact run_upper hup (run_strip hws (Nat.succ_pos k) ((hasRun_iff c (k + 1) s).1 hrun))
  have hne : upperChars (stripChars s) ≠ [] := by
    rw [hasRun_iff] at hrun'
    obtain ⟨l, r, hr⟩ := hrun'
    intro h0
    rw [h0] at hr
    have := List.append_eq_nil.1 (List.append_eq_nil.1 hr.symm).1
    simpa [List.replicate_succ] using this.2
  rcases validate_shape s with ⟨h1, _⟩ | ⟨_, _, h⟩ | ⟨_, _, _, h⟩ | ⟨_, _, hm, _⟩
  · exact absurd h1 hne
  · rw [h]
  · rw [h]
  · exfalso
    obtain ⟨_, _, hrep, _, _⟩ := grammarFacts_of_matches hm
    rw [findOverRepeated, List.find?_eq_none] at hrep
    exact absurd hrun' (by simpa using hrep (c, k) hmem)

/-- Witness for C6's theorem at the concrete input "VV". -/
theorem overrun_invalid_format_witness :
    (validate_roman_numeral ("VV".toList)).status = RomanNumeralValidation.INVALID_FORMAT :=
  overrun_invalid_format _ 'V' 1 (by decide) (by decide)

/-- C6 counterexample: "IIII" has status INVALID_FORMAT, not the
INVALID_REPETITION or INVALID_SUBTRACTION that the claim predicts. -/
theorem overrun_counterexample :
    (validate_roman_numeral ("IIII".toList)).status = RomanNumeralValidation.INVALID_FORMAT ∧
    (validate_roman_numeral ("IIII".toList)).status ≠ RomanNumeralValidation.INVALID_REPETITION ∧
    (validate_roman_numeral ("IIII".toList)).status ≠ RomanNumeralValidation.INVALID_SUBTRACTION := by
  decide

/-- C7 (amended): every input whose stripped, uppercased form is nonempty and
still contains a character outside the seven-symbol alphabet is rejected with
INVALID_FORMAT. -/
theorem badchar_invalid_format (s : List Char)
    (hne : upperChars (stripChars s) ≠ [])
    (hbad : (upperChars (stripChars s)).any (fun c => (ROMAN_VALUES c).isNone) = true) :
    (validate_roman_numeral s).status = RomanNumeralValidation.INVALID_FORMAT := by
  rcases validate_shape s with ⟨h1, _⟩ | ⟨_, _, h⟩ | ⟨_, hfil, _, _⟩ | ⟨_, hfil, _, _⟩
  · exact absurd h1 hne
  · rw [h]
  all_goals {
    exfalso
    rw [List.any_eq_true] at hbad
    obtain ⟨c, hc, hcn⟩ := hbad
    have := List.filter_eq_nil_iff.1 hfil c hc
    exact this hcn }

/-- Witness for C7's theorem at the concrete input "IV4". -/
theorem badchar_invalid_format_witness :
    (validate_roman_numeral ("IV4".toList)).status = RomanNumeralValidation.INVALID_FORMAT :=
  badchar_invalid_format _ (by decide) (by decide)

/-- C7 counterexample: " IV" contains the character ' ', which is outside
the seven-symbol alphabet, yet validation returns VALID (the space is
stripped before the character check). -/
theorem badchar_counterexample :
    (' ' ∈ " IV".toList) ∧ ROMAN_VALUES ' ' = none ∧
    (validate_roman_numeral (" IV".toList)).status = RomanNumeralValidation.VALID ∧
    (validate_roman_numeral (" IV".toList)).status ≠ RomanNumeralValidation.INVALID_FORMAT := by
  decide

/-- C3: for every integer n with 1 ≤ n ≤ 3999, converting with
`arabic_to_roman` and back with `roman_to_arabic` yields n again. -/
theorem roundtrip_identity (n : Int) (h1 : 1 ≤ n) (h2 : n ≤ 3999) :
    (arabic_to_roman n).bind roman_to_arabic = some n := by
  unfold arabic_to_roman
  rw [if_pos ⟨h1, h2⟩, Option.some_bind]
  set j := n.toNat / 1000 with hjdef
  set w := n.toNat % 1000 with hwdef
  have hsplit : n.toNat = 1000 * j + w := by omega
  have hb : roman_to_arabic (a2rGo (w + 14) w CONVERSIONS) = some ((w : Nat) : Int) := by
    by_cases hw0 : w = 0
    · rw [hw0]; decide
    · have hball := rt_base
      rw [List.all_eq_true] at hball
      have hbk := hball (w - 1) (List.mem_range.mpr (by omega))
      unfold rtCheck at hbk
      rw [beq_iff_eq] at hbk
      rw [show ((w - 1 : Nat) : Int) + 1 = ((w : Nat) : Int) by omega] at hbk
      unfold arabic_to_roman at hbk
      rw [if_pos (by constructor <;> omega), Option.some_bind] at hbk
      rwa [show ((w : Nat) : Int).toNat = w by omega] at hbk
  rw [hsplit, a2rGo_peel_repM j w]
  have hyr : ∀ c ∈ a2rGo (w + 14) w CONVERSIONS, (ROMAN_VALUES c).isSome = true := by
    intro c hc
    obtain ⟨p, hp, hcp⟩ := a2rGo_chars _ _ _ c hc
    exact CONVERSIONS_roman p hp c hcp
  rw [roman_to_arabic_repM j hyr, hb]
  simp only [Option.map_some']
  rw [show ((w : Nat) : Int) + 1000 * (j : Int) = n by omega]

/-- Witness for C3's theorem at the concrete value 2024. -/
theorem roundtrip_identity_witness :
    (arabic_to_roman 2024).bind roman_to_arabic = some 2024 :=
  roundtrip_identity 2024 (by norm_num) (by norm_num)

/-- C8: `arabic_to_roman` fails (raises, modelled as `none`) exactly when its
argument lies outside [1, 3999] — in particular at 4000 — and returns a
numeral for every argument inside the range. -/
theorem arabic_to_roman_range :
    arabic_to_roman 4000 = none ∧
    ∀ n : Int, (arabic_to_roman n = none ↔ (n < 1 ∨ 3999 < n)) := by
  constructor
  · norm_num [arabic_to_roman]
  · intro n
    unfold arabic_to_roman
    split_ifs with h
    · simp only [reduceCtorEq, false_iff]
      omega
    · simp only [true_iff]
      omega

/-- C5 counterexample: "IC" does not get status INVALID_SUBTRACTION (it gets
INVALID_FORMAT from the grammar gate). -/
theorem illegal_pairs_counterexample :
    (validate_roman_numeral ("IC".toList)).status ≠ RomanNumeralValidation.INVALID_SUBTRACTION := by
  decide

/-- C5 (amended): the illegal subtractive pairs "IC", "VX" and "XM" are all
rejected with INVALID_FORMAT — the anchored grammar gate rejects them before
any subtraction check runs. -/
theorem illegal_pairs_invalid_format :
    (validate_roman_numeral ("IC".toList)).status = RomanNumeralValidation.INVALID_FORMAT ∧
    (validate_roman_numeral ("VX".toList)).status = RomanNumeralValidation.INVALID_FORMAT ∧
    (validate_roman_numeral ("XM".toList)).status = RomanNumeralValidation.INVALID_FORMAT := by
  decide

/-- C1: scanning "Chapter IV, section IX" with strict=true returns the empty
list, not the two matches the spec promises — the strict scanner reuses the
`^...$`-anchored validation pattern with `finditer`, which can only ever match
the whole text. -/
theorem strict_scan_misses_example :
    find_roman_numerals_in_text ("Chapter IV, section IX".toList) true = [] := by
  decide

theorem resultInv_validate (s : List Char) : resultInv (validate_roman_numeral s) := by
  rcases validate_shape s with ⟨_, h⟩ | ⟨_, _, h⟩ | ⟨_, _, _, h⟩ | ⟨_, hfil, _, h⟩
  · rw [h]; simp [resultInv]
  · rw [h]; simp [resultInv]
  · rw [h]; simp [resultInv]
  · rw [h]
    have hs := roman_to_arabic_isSome (filter_none_all hfil)
    simp [resultInv, hs]

/-- C9: every result produced by `validate_roman_numeral` or by
`find_roman_numerals_in_text` (either mode) satisfies the field invariant:
value present iff status = VALID, error detail present iff status ≠ VALID,
and never both present. -/
theorem result_fields_invariant :
    (∀ s, resultInv (validate_roman_numeral s)) ∧
    (∀ t strict r, r ∈ find_roman_numerals_in_text t strict → resultInv r) := by
  refine ⟨resultInv_validate, ?_⟩
  intro t strict r hr
  cases strict with
  | false =>
    simp only [find_roman_numerals_in_text, Bool.false_eq_true, if_false, List.mem_map] at hr
    obtain ⟨x, _, rfl⟩ := hr
    have := resultInv_validate x.2.2
    simpa [resultInv] using this
  | true =>
    simp only [find_roman_numerals_in_text, if_true] at hr
    by_cases hm : matchesStrict (upperChars t) = true
    · rw [if_pos hm] at hr
      simp only [List.mem_singleton] at hr
      subst hr
      obtain ⟨hchars, _, _, _, _⟩ := grammarFacts_of_matches hm
      have hs := roman_to_arabic_isSome hchars
      simp [resultInv, hs]
    · rw [if_neg hm] at hr
      by_cases h2 : ((upperChars t).getLast? == some '\n' && matchesStrict (upperChars t).dropLast) = true
      · rw [if_pos h2] at hr
        simp only [List.mem_singleton] at hr
        subst hr
        rw [Bool.and_eq_true] at h2
        obtain ⟨hchars, _, _, _, _⟩ := grammarFacts_of_matches h2.2
        have hs := roman_to_arabic_isSome hchars
        simp [resultInv, hs]
      · rw [if_neg h2] at hr
        simp at hr

/-- Witness for C9's theorem: the validator on "XLII" and a concrete member
of the loose scan of "ix!". -/
theorem result_fields_invariant_witness :
    resultInv (validate_roman_numeral ("XLII".toList)) ∧
    resultInv { numeral := "IX".toList, value := some 9,
                status := RomanNumeralValidation.VALID, position := some (0, 2),
                error_details := none } :=
  ⟨result_fields_invariant.1 _,
   result_fields_invariant.2 ("ix!".toList) false _ (by decide)⟩

/-- C10 (amended): strict scanning returns at most one result; it returns a
(VALID) result exactly when the entire uppercased text — or that text minus a
single trailing newline, which the pattern's final anchor also accepts —
matches the anchored structural grammar; and on empty input it returns one
result whose numeral is the empty string with value 0 and status VALID. -/
theorem strict_scan_shape (t : List Char) :
    (find_roman_numerals_in_text t true).length ≤ 1 ∧
    (find_roman_numerals_in_text t true ≠ [] ↔
      (matchesStrict (upperChars t) = true ∨
        ((upperChars t).getLast? = some '\n' ∧
          matchesStrict ((upperChars t).dropLast) = true))) ∧
    (∀ r ∈ find_roman_numerals_in_text t true, r.status = RomanNumeralValidation.VALID) ∧
    find_roman_numerals_in_text [] true =
      [{ numeral := [], value := some 0, status := RomanNumeralValidation.VALID,
         position := some (0, 0), error_details := none }] := by
  refine ⟨?_, ?_, ?_, by decide⟩ <;>
    simp only [find_roman_numerals_in_text, if_true] <;>
    by_cases hm : matchesStrict (upperChars t) = true
  · rw [if_pos hm]; simp
  · rw [if_neg hm]
    by_cases h2 : ((upperChars t).getLast? == some '\n' && matchesStrict (upperChars t).dropLast) = true
    · rw [if_pos h2]; simp
    · rw [if_neg h2]; simp
  · rw [if_pos hm]; simp [hm]
  · rw [if_neg hm]
    by_cases h2 : ((upperChars t).getLast? == some '\n' && matchesStrict (upperChars t).dropLast) = true
    · rw [if_pos h2]
      rw [Bool.and_eq_true, beq_iff_eq] at h2
      simp [h2]
    · rw [if_neg h2]
      rw [Bool.and_eq_true] at h2
      simp only [ne_eq, not_true_eq_false, false_iff, not_or, not_and]
      constructor
      · exact hm
      · intro hl
        intro hms
        exact h2 ⟨by rw [hl]; rfl, hms⟩
  · rw [if_pos hm]; intro r hr; simp only [List.mem_singleton] at hr; subst hr; rfl
  · rw [if_neg hm]
    by_cases h2 : ((upperChars t).getLast? == some '\n' && matchesStrict (upperChars t).dropLast) = true
    · rw [if_pos h2]; intro r hr; simp only [List.mem_singleton] at hr; subst hr; rfl
    · rw [if_neg h2]; intro r hr; simp at hr

/-- Witness for C10's theorem at the concrete text "IV". -/
theorem strict_scan_shape_witness :
    (find_roman_numerals_in_text ("IV".toList) true).length ≤ 1 ∧
    ({ numeral := "IV".toList, value := some 4, status := RomanNumeralValidation.VALID,
       position := some (0, 2), error_details := none } : RomanNumeralResult).status =
      RomanNumeralValidation.VALID :=
  ⟨(strict_scan_shape ("IV".toList)).1,
   (strict_scan_shape ("IV".toList)).2.2.1 _ (by decide)⟩

/-- C10 counterexample: for the text "IV\n" the entire uppercased text does
not match the structural grammar, yet strict scanning returns a result. -/
theorem strict_scan_newline_counterexample :
    matchesStrict (upperChars ("IV\n".toList)) = false ∧
    find_roman_numerals_in_text ("IV\n".toList) true =
      [{ numeral := "IV".toList, value := some 4, status := RomanNumeralValidation.VALID,
         position := some (0, 2), error_details := none }] := by
  decide

end Laba2
